import Mathlib

/-!
Verification development for the scraper / NLP-enrichment pipeline.

The Python sources are shallowly embedded as Lean functions:
 - `scraper/text_utils.py`: `clean_text`, `translate_to_english`, `is_spammy`,
   `format_tweet`;
 - `scraper/scraper.py`: `fetch_tweets_for_keyword`, `fetch_tweets`,
   `scrape_and_save` (the combine step);
 - `scraper/reddit_search.py`: the shape of the post records returned by
   `search_reddit_query`;
 - `nlp/sentiment_analyzer.py`: `_batchify`, `process_batch`, the
   sentiment-assignment phase of `process_dataframe`, `format_output`,
   `get_sentiment_buckets`.

External collaborators (the twscrape search stream, the Reddit client, the
language detector, the machine translator, the emoji stripper and the
sentiment model) are passed in as explicit function parameters, exactly at
the boundary where the Python code calls into the corresponding library.

Python regular expressions are embedded as character-list scanners.  The
character classes `\w` and `\s` are modelled by their ASCII extension
(Python's are Unicode-aware); every claim proved below is insensitive to
this because `clean_text` replaces each non-ASCII run by a single space
before any character-class-sensitive decision is made on cleaned text.
Machine floats are modelled by `ℚ`.
-/

/-! ## Character classes (ASCII extensions of Python's `\w`, `\s`) -/
/-- Python `\w` (ASCII part): `[A-Za-z0-9_]`. -/
def isWordChar (c : Char) : Bool :=
  (97 ≤ c.toNat && c.toNat ≤ 122) || (65 ≤ c.toNat && c.toNat ≤ 90) ||
  (48 ≤ c.toNat && c.toNat ≤ 57) || c.toNat == 95

/-- Python `\s` (ASCII part): space, `\t`, `\n`, `\r`, `\x0b`, `\x0c`. -/
def isWS (c : Char) : Bool :=
  c.toNat == 32 || c.toNat == 9 || c.toNat == 10 ||
  c.toNat == 13 || c.toNat == 11 || c.toNat == 12

/-- The character class kept by `re.sub(r"[^\w\s.,!?'-]", "", text)`. -/
def keepChar (c : Char) : Bool :=
  isWordChar c || isWS c ||
  c == '.' || c == ',' || c == '!' || c == '?' || c == '\'' || c == '-'

/-- Python `str.lower` on one character (ASCII range). -/
def pyLower (c : Char) : Char :=
  if 65 ≤ c.toNat && c.toNat ≤ 90 then Char.ofNat (c.toNat + 32) else c

/-- Python `str.upper` on one character (ASCII range). -/
def pyUpper (c : Char) : Char :=
  if 97 ≤ c.toNat && c.toNat ≤ 122 then Char.ofNat (c.toNat - 32) else c

def lowerChars (l : List Char) : List Char := l.map pyLower

def pyLowerStr (s : String) : String := String.mk (lowerChars s.data)

def pyUpperStr (s : String) : String := String.mk (s.data.map pyUpper)

/-! ## Python `str.strip` -/
/-- Drop a trailing whitespace run (helper for `strip`). -/
def dropTrailWs : List Char → List Char
  | [] => []
  | c :: cs =>
    match dropTrailWs cs, isWS c with
    | [], true => []
    | [], false => [c]
    | r :: rs, _ => c :: r :: rs

/-- Python `str.strip()` (ASCII whitespace). -/
def pstrip (l : List Char) : List Char :=
  dropTrailWs (l.dropWhile isWS)

/-! ## The regex substitutions of `clean_text`, as fuel-indexed scanners

Each scanner walks the character list left to right exactly as `re.sub`
does: at every position it first tries to match the pattern; on a match it
removes (or replaces) the matched span and resumes after it, otherwise it
keeps the character and moves one position on.  The fuel argument is only
a structural-termination device; it is initialised with the list length,
which the step lemmas show is always sufficient. -/
/-- If `https?://\S+` matches at the head of `l`, return the suffix after
the (greedy, maximal) match. -/
def urlStart (l : List Char) : Option (List Char) :=
  if l.take 8 = ['h', 't', 't', 'p', 's', ':', '/', '/'] then
    match l.drop 8 with
    | d :: ds => if isWS d then none
                 else some ((d :: ds).dropWhile (fun x => !isWS x))
    | [] => none
  else if l.take 7 = ['h', 't', 't', 'p', ':', '/', '/'] then
    match l.drop 7 with
    | d :: ds => if isWS d then none
                 else some ((d :: ds).dropWhile (fun x => !isWS x))
    | [] => none
  else none

/-- Embeds `re.sub(r"https?://\S+", "", ·)` (fuel-indexed scan). -/
def rmUrlF : Nat → List Char → List Char
  | 0, l => l
  | _ + 1, [] => []
  | fuel + 1, c :: cs =>
    match urlStart (c :: cs) with
    | some rest => rmUrlF fuel rest
    | none => c :: rmUrlF fuel cs

def removeUrls (l : List Char) : List Char := rmUrlF l.length l

/-- If `mark\w+` matches at the head of `l` (`mark` is `@` or `#`), return
the suffix after the greedy match. -/
def tokStart (mark : Char) (l : List Char) : Option (List Char) :=
  match l with
  | c :: d :: rest =>
    if c == mark && isWordChar d then some ((d :: rest).dropWhile isWordChar)
    else none
  | _ => none

/-- Embeds `re.sub(r"@\w+", "", ·)` and `re.sub(r"#\w+", "", ·)` (fuel-indexed). -/
def rmTokF (mark : Char) : Nat → List Char → List Char
  | 0, l => l
  | _ + 1, [] => []
  | fuel + 1, c :: cs =>
    match tokStart mark (c :: cs) with
    | some rest => rmTokF mark fuel rest
    | none => c :: rmTokF mark fuel cs

def removeMentions (l : List Char) : List Char := rmTokF '@' l.length l

def removeHashtags (l : List Char) : List Char := rmTokF '#' l.length l

/-- If `[^\x00-\x7F]+` matches at the head of `l`, return the suffix after
the maximal non-ASCII run. -/
def nonAsciiStart (l : List Char) : Option (List Char) :=
  match l with
  | c :: cs =>
    if 128 ≤ c.toNat then some (cs.dropWhile (fun x => 128 ≤ x.toNat)) else none
  | [] => none

/-- Embeds `re.sub(r"[^\x00-\x7F]+", " ", ·)`: each non-ASCII run becomes one space. -/
def rmNaF : Nat → List Char → List Char
  | 0, l => l
  | _ + 1, [] => []
  | fuel + 1, c :: cs =>
    match nonAsciiStart (c :: cs) with
    | some rest => ' ' :: rmNaF fuel rest
    | none => c :: rmNaF fuel cs

def removeNonAscii (l : List Char) : List Char := rmNaF l.length l

/-- If `\s+` matches at the head of `l`, return the suffix after the run. -/
def wsStart (l : List Char) : Option (List Char) :=
  match l with
  | c :: cs => if isWS c then some (cs.dropWhile isWS) else none
  | [] => none

/-- Embeds `re.sub(r"\s+", " ", ·)`: each whitespace run becomes one space. -/
def clpF : Nat → List Char → List Char
  | 0, l => l
  | _ + 1, [] => []
  | fuel + 1, c :: cs =>
    match wsStart (c :: cs) with
    | some rest => ' ' :: clpF fuel rest
    | none => c :: clpF fuel cs

def collapseWs (l : List Char) : List Char := clpF l.length l

/-! ## `clean_text` (scraper/text_utils.py, lines 11–25)

The emoji stripper `emoji.replace_emoji(·, replace="")` is an external
library and is passed in as the parameter `rE`.  The Python guard for
non-string input is discharged by typing. -/
def cleanChars (rE : List Char → List Char) (l : List Char) : List Char :=
  pstrip (collapseWs (List.filter keepChar
    (removeNonAscii (removeHashtags (removeMentions (removeUrls (rE l)))))))

def clean_text (rE : List Char → List Char) (s : String) : String :=
  String.mk (cleanChars rE s.data)

/-! ## Shape predicates for cleaned text -/
/-- The head (if any) is not whitespace. -/
def headNonWs : List Char → Bool
  | [] => true
  | c :: _ => !isWS c

/-- The last element (if any) is not whitespace. -/
def lastNonWs : List Char → Bool
  | [] => true
  | [c] => !isWS c
  | _ :: c :: cs => lastNonWs (c :: cs)

/-- No two adjacent whitespace characters. -/
def noTwoWs : List Char → Bool
  | a :: b :: rest => (!(isWS a && isWS b)) && noTwoWs (b :: rest)
  | _ => true

/-! ## Token scanners (used to state C7) -/
/-- Returns `true` iff the text contains a `mark\w+` token (an `@mention` or a `#hashtag`). -/
def hasTok (mark : Char) : List Char → Bool
  | [] => false
  | [_] => false
  | c :: d :: rest => (c == mark && isWordChar d) || hasTok mark (d :: rest)

/-- Returns `true` iff the text contains an `https?://\S+` token. -/
def hasUrl : List Char → Bool
  | [] => false
  | c :: cs => (urlStart (c :: cs)).isSome || hasUrl cs

/-! ## `is_spammy` (scraper/text_utils.py, lines 39–54)

The Python function receives the tweet object and reads
`tweet.rawContent or ""`; the embedding takes that raw text directly. -/
/-- Deterministic automaton for `re.fullmatch(r"(#\w+\s*)+", ·)`.
States: 0 = expecting `#` with no group completed; 1 = just read `#`,
need at least one word character; 2 = inside the `\w+` run; 3 = inside the
trailing `\s*` run.  States 2 and 3 accept at end of input.  (The regex is
deterministic here: giving back characters from the greedy `\w+`/`\s*` can
never enable an otherwise-failing continuation, since a new group must
start with `#`, which is neither a word nor a whitespace character.) -/
def htAux : Nat → List Char → Bool
  | 0, [] => false
  | 0, c :: cs => if c == '#' then htAux 1 cs else false
  | 1, [] => false
  | 1, c :: cs => if isWordChar c then htAux 2 cs else false
  | 2, [] => true
  | 2, c :: cs =>
    if isWordChar c then htAux 2 cs
    else if isWS c then htAux 3 cs
    else if c == '#' then htAux 1 cs else false
  | 3, [] => true
  | 3, c :: cs =>
    if isWS c then htAux 3 cs
    else if c == '#' then htAux 1 cs else false
  | _ + 4, _ => false

/-- Embeds `re.fullmatch(r"(#\w+\s*)+", l)` as a Boolean. -/
def hashtagOnly (l : List Char) : Bool := htAux 0 l

/-- Python `"http" in raw` (substring containment). -/
def containsHttp : List Char → Bool
  | 'h' :: 't' :: 't' :: 'p' :: _ => true
  | _ :: cs => containsHttp cs
  | [] => false

/-- Number of whitespace-delimited tokens, i.e. `len(raw.split())`.
The Boolean argument records whether the scan is currently inside a token. -/
def wsTokensAux : Bool → List Char → Nat
  | _, [] => 0
  | inTok, c :: cs =>
    if isWS c then wsTokensAux false cs
    else if inTok then wsTokensAux true cs
    else 1 + wsTokensAux true cs

def wsTokens (l : List Char) : Nat := wsTokensAux false l

/-- Embeds `·.startswith("rt ")`. -/
def startsRt : List Char → Bool
  | 'r' :: 't' :: ' ' :: _ => true
  | _ => false

/-- Embeds `is_spammy` (text_utils.py lines 39–54): sequential early-return checks. -/
def is_spammy (rE : List Char → List Char) (raw : String) : Bool :=
  let cleaned := lowerChars (cleanChars rE raw.data)
  if (pstrip cleaned).length < 15 then true
  else if 6 < raw.data.count '#' then true
  else if hashtagOnly (pstrip raw.data) then true
  else if containsHttp raw.data && decide (wsTokens raw.data < 5) then true
  else if startsRt (pstrip (lowerChars raw.data)) then true
  else false

/-! ## `translate_to_english` (scraper/text_utils.py, lines 27–37)

The language detector and the machine translator are external fallible
collaborators, modelled as `Option`-returning functions (`none` models the
library call raising).  The embedding is total — the Python `try/except`
returns the input text on any failure, so no error ever propagates. -/
def translate_to_english (detect : String → Option String)
    (translate : String → Option String) (text : String) : String :=
  if text = "" || decide ((pstrip text.data).length < 3) then text
  else
    match detect text with
    | none => text
    | some lang =>
      if lang ≠ "en" then
        match translate text with
        | none => text
        | some t => t
      else text

/-! ## Sentiment engine (nlp/sentiment_analyzer.py)

The Hugging Face pipeline is an external collaborator: a batch call either
returns a list of raw `{label, score}` dicts or raises.  It is modelled as
`classify : List String → Option (List RawLS)`, `none` being the raised
exception that `process_batch` catches.  Machine floats are modelled by `ℚ`. -/
/-- A raw result dict from the sentiment pipeline; the code reads the keys
defensively (`r.get("label", "")`, `r.get("score", 0.0)`), hence `Option`
fields. -/
structure RawLS where
  label : Option String
  score : Option ℚ
deriving DecidableEq

/-- A normalized sentiment entry (`{"label": ..., "score": ...}`). -/
structure LabelScore where
  label : String
  score : ℚ
deriving DecidableEq

/-- Embeds `round(·, 3)`.  (Python's `round` on floats breaks ties to even within
binary floating point; no claim depends on the tie-breaking rule or on
binary rounding error, so the exact rational rounding stands in for it.) -/
def round3 (q : ℚ) : ℚ := round (q * 1000) / 1000

/-- The label-normalization block of `process_batch` (lines 176–184):
`LABEL_MAP_CARDIFF` lookup, then upper/lower membership tests, else the
label is kept as-is. -/
def mapLabel (label : String) : String :=
  if label = "LABEL_0" then "NEGATIVE"
  else if label = "LABEL_1" then "NEUTRAL"
  else if label = "LABEL_2" then "POSITIVE"
  else if pyUpperStr label = "POSITIVE" ∨ pyUpperStr label = "NEGATIVE" ∨
      pyUpperStr label = "NEUTRAL" then pyUpperStr label
  else if pyLowerStr label = "positive" ∨ pyLowerStr label = "negative" ∨
      pyLowerStr label = "neutral" then pyUpperStr label
  else label

/-- One raw result → one appended batch entry (lines 172–189). -/
def post_process (r : RawLS) : LabelScore :=
  { label := mapLabel (r.label.getD ""), score := round3 (r.score.getD 0) }

/-- Embeds `_batchify` (lines 114–121): consecutive slices of size `batch_size`.
The fuel is the list length; it suffices because every step consumes at
least one element when `0 < bs`.  (Python `range(0, n, 0)` raises
`ValueError`, so callers require a positive batch size.) -/
def batchAux {α : Type} : Nat → List α → Nat → List (List α)
  | _, [], _ => []
  | 0, _ :: _, _ => []
  | fuel + 1, a :: as, bs => (a :: as).take bs :: batchAux fuel ((a :: as).drop bs) bs

def _batchify {α : Type} (l : List α) (batch_size : Nat) : List (List α) :=
  batchAux l.length l batch_size

/-- Embeds `process_batch` (lines 164–197): normalize every result of a successful
classifier call; on a raised exception assign NEUTRAL/0.0 to every item of
the batch. -/
def process_batch (classify : List String → Option (List RawLS))
    (batch : List String) : List LabelScore :=
  match classify batch with
  | some res => res.map post_process
  | none => batch.map (fun _ => { label := "NEUTRAL", score := 0 })

/-- The per-batch results in batch order. -/
def batchResults (classify : List String → Option (List RawLS)) (bs : Nat)
    (texts : List String) : List (List LabelScore) :=
  (_batchify texts bs).map (process_batch classify)

/-- The `sentiments` list after the executor loop (lines 199–202).
`ThreadPoolExecutor.map` yields per-batch results in task submission order
— not completion order — so the concurrent loop extends `sentiments` in
batch order; completion-order independence is proven separately (C3). -/
def sentimentsJoined (classify : List String → Option (List RawLS)) (bs : Nat)
    (texts : List String) : List LabelScore :=
  (batchResults classify bs texts).flatten

/-- Lines 199–206: join the batch results, then pad with NEUTRAL/0.0 up to
the number of input rows. -/
def run_sentiments (classify : List String → Option (List RawLS)) (bs : Nat)
    (texts : List String) : List LabelScore :=
  if (sentimentsJoined classify bs texts).length < texts.length then
    sentimentsJoined classify bs texts ++
      List.replicate (texts.length - (sentimentsJoined classify bs texts).length)
        { label := "NEUTRAL", score := 0 }
  else sentimentsJoined classify bs texts

/-- An enriched row (the sentiment-relevant columns of the final frame). -/
structure EnrichedOut where
  text : String
  keywords : List String
  entities : List (String × String)
  sentiment : String
  sentiment_score : ℚ
deriving DecidableEq

/-- The enrichment pipeline of `process_dataframe` on the `text` column:
keyword and entity extraction are spaCy calls (external, per row, passed as
`kw`/`ent`), then the sentiment columns are assigned from `run_sentiments`.
The pandas column assignments (lines 209–210) require the value list to
have exactly the frame's length — `c2_enrich_count` shows the lengths
agree. -/
def process_texts (kw : String → List String)
    (ent : String → List (String × String))
    (classify : List String → Option (List RawLS)) (bs : Nat)
    (texts : List String) : List EnrichedOut :=
  texts.zipWith
    (fun t s => { text := t, keywords := kw t, entities := ent t,
                  sentiment := s.label, sentiment_score := s.score })
    (run_sentiments classify bs texts)

/-! ## C3: batch concatenation order under concurrency

A completed concurrent run is modelled as the list of `(batch index, that
batch's results)` pairs in an arbitrary completion order — any permutation
of the canonical enumeration `(range k).zip jobs`, which covers every
interleaving any worker count can produce.  Reassembling by batch index
(what `executor.map`'s submission-order iteration performs) recovers the
batch-order concatenation, independently of the completion order. -/
/-- Join the per-batch results of a completed run in batch-index order. -/
def assembleByIndex (n : Nat) (completed : List (Nat × List LabelScore)) :
    List LabelScore :=
  ((List.range n).map
    (fun i => ((completed.filter (fun p => p.1 == i)).map Prod.snd).flatten)).flatten

/-- The pipeline lifted from a per-item classifier: a batch call returns one
raw result per text and never raises. -/
def liftBatch (g : String → RawLS) : List String → Option (List RawLS) :=
  fun b => some (b.map g)

/-- Modelled from the spec: the sequential reference — classify every text
in input order, one at a time, with the same per-item normalization the
code applies. -/
def seqClassify (g : String → RawLS) (texts : List String) : List LabelScore :=
  texts.map (fun t => post_process (g t))

/-! ## The Collector (scraper/scraper.py)

The twscrape search stream and the Reddit search are external
collaborators, passed as `search` (receiving the limit argument the code
passes to `api.search`) and `redditSearch` (receiving the post/comment
limits).  Keyword generation (`generate_search_terms`) consults an external
LLM with a heuristic fallback; its outcome is the `keywords` parameter of
`fetch_tweets` / `scrape_and_save`. -/
/-- The fields of the twscrape `Tweet` object that the code reads.  The
timestamp is carried as its already-`strftime`-formatted string (the
formatting itself is a library call on an opaque datetime). -/
structure TwUser where
  username : String
  displayname : String
deriving DecidableEq

structure Tweet where
  id : String
  rawContent : String
  user : Option TwUser
  hashtags : List String
  likeCount : Nat
  retweetCount : Nat
  replyCount : Nat
  bookmarkCount : Nat
  viewCount : Nat
  date : Option String
deriving DecidableEq

/-- The dict built by `format_tweet` (text_utils.py lines 56–81).  `source`
is `none` there — the key is only added by the fetch loops
(`formatted["source"] = "twitter"`) and defaulted by `scrape_and_save`'s
`setdefault`. -/
structure FormattedTweet where
  id : String
  username : String
  name : String
  text : String
  raw_text : String
  query : String
  tweet_count : Nat
  likes : Nat
  retweets : Nat
  replies : Nat
  bookmarks : Nat
  views : Nat
  created_at : String
  hashtags : List String
  content_urls : List String
  url : String
  source : Option String
deriving DecidableEq

/-- Embeds `re.findall(r"https?://\S+", ·)`: every match, left to right. -/
def findUrlF : Nat → List Char → List String
  | 0, _ => []
  | _ + 1, [] => []
  | fuel + 1, c :: cs =>
    match urlStart (c :: cs) with
    | some rest =>
      String.mk ((c :: cs).take ((c :: cs).length - rest.length)) :: findUrlF fuel rest
    | none => findUrlF fuel cs

def findUrls (l : List Char) : List String := findUrlF l.length l

/-- Embeds `format_tweet` (text_utils.py lines 56–81). -/
def format_tweet (rE : List Char → List Char)
    (detect translate : String → Option String)
    (tweet : Tweet) (query : String) (index : Nat) : FormattedTweet :=
  let raw := tweet.rawContent
  let cleaned := clean_text rE raw
  let translated := translate_to_english detect translate cleaned
  { id := tweet.id
    username := (tweet.user.map TwUser.username).getD ""
    name := (tweet.user.map TwUser.displayname).getD ""
    text := translated
    raw_text := raw
    query := query
    tweet_count := index + 1
    likes := tweet.likeCount
    retweets := tweet.retweetCount
    replies := tweet.replyCount
    bookmarks := tweet.bookmarkCount
    views := tweet.viewCount
    created_at := tweet.date.getD ""
    hashtags := tweet.hashtags
    content_urls := if raw = "" then [] else findUrls raw.data
    url := "https://twitter.com/" ++ (tweet.user.map TwUser.username).getD "" ++
      "/status/" ++ tweet.id
    source := none }

/-- The body of the `async for tweet in api.search(...)` loop shared by
`fetch_tweets_for_keyword` (scraper.py lines 103–118) and the single-pass
branch of `fetch_tweets` (lines 126–139): skip spammy tweets, format
accepted ones with their acceptance index and tag them `"twitter"`, and
stop once `limit` accepted posts are collected (the count check runs after
every stream item). -/
def fetchAccum (rE : List Char → List Char)
    (detect translate : String → Option String) (kw : String) (limit : Nat) :
    List Tweet → List FormattedTweet → List FormattedTweet
  | [], acc => acc
  | t :: ts, acc =>
    let acc' := if is_spammy rE t.rawContent then acc
      else acc ++
        [{ format_tweet rE detect translate t kw acc.length with
            source := some "twitter" }]
    if limit ≤ acc'.length then acc'
    else fetchAccum rE detect translate kw limit ts acc'

/-- Embeds `fetch_tweets_for_keyword` (lines 103–118): the stream is
`api.search(keyword, limit=limit*2)`. -/
def fetch_tweets_for_keyword (rE : List Char → List Char)
    (detect translate : String → Option String)
    (search : String → Nat → List Tweet) (kw : String) (limit : Nat) :
    List FormattedTweet :=
  fetchAccum rE detect translate kw limit (search kw (limit * 2)) []

/-- The per-keyword merge of `fetch_tweets` (lines 146–151): skip any
fetched post whose id was already accepted.  The code snapshots
`existing_ids = {r.get("id") for r in results}` and adds every appended id
to the set; since the ids of the accumulator are exactly that set at each
step, membership in the accumulator is the same test. -/
def mergeDedup (results fetched : List FormattedTweet) : List FormattedTweet :=
  fetched.foldl
    (fun acc ft => if acc.any (fun r => r.id == ft.id) then acc else acc ++ [ft])
    results

/-- The keyword loop of `fetch_tweets` (lines 144–153): fetch per keyword,
merge with id-dedup, stop once `max_results` is reached. -/
def kwLoop (rE : List Char → List Char)
    (detect translate : String → Option String)
    (search : String → Nat → List Tweet) (per_kw max_results : Nat) :
    List String → List FormattedTweet → List FormattedTweet
  | [], results => results
  | kw :: kws, results =>
    let results' := mergeDedup results
      (fetch_tweets_for_keyword rE detect translate search kw per_kw)
    if max_results ≤ results'.length then results'
    else kwLoop rE detect translate search per_kw max_results kws results'

/-- Embeds `fetch_tweets` (lines 120–156).  `if not keywords:` treats both `None`
and the empty list as the single-pass case; the stream limit there is
`max_results * 5`, and `per_kw = max(1, max_results // max(1, len(keywords)))`. -/
def fetch_tweets (rE : List Char → List Char)
    (detect translate : String → Option String)
    (search : String → Nat → List Tweet) (query : String) (max_results : Nat)
    (keywords : Option (List String)) : List FormattedTweet :=
  match keywords with
  | none =>
    fetchAccum rE detect translate query max_results (search query (max_results * 5)) []
  | some [] =>
    fetchAccum rE detect translate query max_results (search query (max_results * 5)) []
  | some (kw :: kws) =>
    kwLoop rE detect translate search
      (max 1 (max_results / max 1 (kw :: kws).length)) max_results (kw :: kws) []

/-- One comment dict from `search_reddit_query` (reddit_search.py lines
48–55). -/
structure RedditComment where
  comment_id : String
  body : String
  author : String
  score : Int
  created_utc : ℚ
  parent_id : String
deriving DecidableEq

/-- One post dict from `search_reddit_query` (reddit_search.py lines
32–41).  Note the identifier key is `"id"`. -/
structure RedditPost where
  id : String
  source : String
  subreddit : String
  title : String
  body : String
  author : String
  score : Int
  created_utc : ℚ
  comments : List RedditComment
deriving DecidableEq

/-- One normalized forum item as built in `scrape_and_save` (scraper.py
lines 199–209). -/
structure RedditItem where
  id : Option String
  source : String
  subreddit : String
  text : String
  raw_text : String
  query : String
  score : Int
  created_at : ℚ
  url : String
deriving DecidableEq

/-- The reddit normalization of `scrape_and_save` (lines 195–210): compose
`title + body + up to 5 comment bodies`, joined by single spaces and
stripped.  NOTE: the producer keys the post identifier as `"id"`
(reddit_search.py line 33), while this consumer reads `p.get("post_id")` —
a key the post dict never carries — so the item id is always `None`
(modelled `none`) and the URL interpolates Python's `None`. -/
def redditToItem (q : String) (p : RedditPost) : RedditItem :=
  let comments_text := String.intercalate " " ((p.comments.take 5).map RedditComment.body)
  let composed := String.mk (pstrip (String.intercalate " " [p.title, p.body, comments_text]).data)
  { id := none
    source := "reddit"
    subreddit := p.subreddit
    text := composed
    raw_text := composed
    query := q
    score := p.score
    created_at := p.created_utc
    url := "https://reddit.com/None" }

/-- The reddit queries of `scrape_and_save` (line 190): `keywords or [query]`
(the empty keyword list is falsy). -/
def reddit_qs (query : String) (keywords : Option (List String)) : List String :=
  match keywords with
  | none => [query]
  | some [] => [query]
  | some (kw :: kws) => kw :: kws

/-- The forum half of `scrape_and_save` (lines 189–210): up to 3 queries,
each fetched and normalized; a failed forum query contributes no items
(the `except` logs and moves on — modelled by `redditSearch` returning `[]`
for that query). -/
def reddit_results (redditSearch : String → Nat → Nat → List RedditPost)
    (query : String) (reddit_posts reddit_comments : Nat)
    (keywords : Option (List String)) : List RedditItem :=
  ((reddit_qs query keywords).take 3).foldl
    (fun acc q => acc ++ (redditSearch q reddit_posts reddit_comments).map (redditToItem q))
    []

/-- A combined-list element: either a formatted microblog post dict or a
normalized forum item dict (the two dict shapes differ, hence a sum). -/
inductive CombinedItem where
  | tw (t : FormattedTweet)
  | rd (r : RedditItem)
deriving DecidableEq

/-- The `"id"` value of a combined item (`None` possible on forum items). -/
def CombinedItem.idOpt : CombinedItem → Option String
  | tw t => some t.id
  | rd r => r.id

/-- The `"source"` value of a combined item. -/
def CombinedItem.srcTag : CombinedItem → Option String
  | tw t => t.source
  | rd r => some r.source

/-- Embeds `scrape_and_save` (scraper.py lines 168–227), after keyword
generation: fetch microblog posts, fetch and normalize forum posts, then
combine — every tweet first (with `setdefault("source", "twitter")`), then
every forum item.  Persistence (`save_tweets`) is file I/O on the returned
list and out of scope; the embedding returns the combined list the code
saves and returns. -/
def scrape_and_save (rE : List Char → List Char)
    (detect translate : String → Option String)
    (search : String → Nat → List Tweet)
    (redditSearch : String → Nat → Nat → List RedditPost)
    (query : String) (max_results reddit_posts reddit_comments : Nat)
    (keywords : Option (List String)) : List CombinedItem :=
  let tweets := fetch_tweets rE detect translate search query max_results keywords
  (tweets.map (fun t =>
    CombinedItem.tw { t with source := some (t.source.getD "twitter") })) ++
  (reddit_results redditSearch query reddit_posts reddit_comments keywords).map
    CombinedItem.rd

/-! ## C1: deduplication across keywords and sources -/
/-- A non-spammy microblog post with id "1". -/
def tweetA : Tweet :=
  { id := "1",
    rawContent := "this is a perfectly fine tweet about lean verification",
    user := none, hashtags := [], likeCount := 0, retweetCount := 0,
    replyCount := 0, bookmarkCount := 0, viewCount := 0, date := none }

/-- A non-spammy microblog post with id "2". -/
def tweetB : Tweet :=
  { tweetA with
    id := "2",
    rawContent := "another perfectly fine long tweet about checking proofs" }

/-- A microblog source whose fetches for keywords "a" and "b" share the
common id "1". -/
def searchAB : String → Nat → List Tweet :=
  fun kw _ => if kw = "a" then [tweetA] else [tweetA, tweetB]

/-- A forum post (identifier key `"id"`, as the producer builds it). -/
def examplePost : RedditPost :=
  { id := "r1", source := "reddit", subreddit := "all",
    title := "a title", body := "a body", author := "u", score := 1,
    created_utc := 0, comments := [] }

/-! ## `get_sentiment_buckets` (sentiment_analyzer.py, lines 232–250) -/
/-- A frame row as `get_sentiment_buckets` reads it: both columns fetched
defensively with `row.get`, hence `Option` fields.  (`str(...)` on the
fetched value is the identity for the string-valued column modelled here.) -/
structure DFRow where
  sentiment : Option String
  text : Option String
deriving DecidableEq

/-- The fixed-key result dict `{"POSITIVE": [], "NEGATIVE": [], "NEUTRAL": []}` —
a record with exactly the three canonical keys. -/
structure Buckets where
  positive : List String
  negative : List String
  neutral : List String
deriving DecidableEq

/-- Embeds `str(row.get("sentiment", "NEUTRAL")).upper()`. -/
def rowLabel (row : DFRow) : String := pyUpperStr (row.sentiment.getD "NEUTRAL")

/-- Embeds `row.get("text", "")`. -/
def rowText (row : DFRow) : String := row.text.getD ""

/-- One iteration of the `df.iterrows()` loop: `if sentiment not in buckets`
append to NEUTRAL, else append to `buckets[sentiment]`. -/
def bucketStep (b : Buckets) (row : DFRow) : Buckets :=
  if rowLabel row ≠ "POSITIVE" ∧ rowLabel row ≠ "NEGATIVE" ∧
      rowLabel row ≠ "NEUTRAL" then
    { b with neutral := b.neutral ++ [rowText row] }
  else if rowLabel row = "POSITIVE" then
    { b with positive := b.positive ++ [rowText row] }
  else if rowLabel row = "NEGATIVE" then
    { b with negative := b.negative ++ [rowText row] }
  else
    { b with neutral := b.neutral ++ [rowText row] }

def get_sentiment_buckets (rows : List DFRow) : Buckets :=
  rows.foldl bucketStep { positive := [], negative := [], neutral := [] }

/-! ## `format_output` (sentiment_analyzer.py, lines 213–225) -/
/-- An enriched row as `format_output` reads it: every projected column is
fetched with `row.get(key, default)`, hence `Option` fields. -/
structure EnrichedRow where
  username : Option String
  text : Option String
  sentiment : Option String
  sentiment_score : Option ℚ
  keywords : Option (List String)
  entities : Option (List (String × String))
  created_at : Option String
  url : Option String
deriving DecidableEq

/-- The readable output record: exactly the eight projected fields. -/
structure ReadableRecord where
  username : String
  text : String
  sentiment : String
  score : ℚ
  keywords : List String
  entities : List (String × String)
  created_at : String
  url : String
deriving DecidableEq

def format_output (row : EnrichedRow) : ReadableRecord :=
  { username := row.username.getD ""
    text := row.text.getD ""
    sentiment := row.sentiment.getD ""
    score := row.sentiment_score.getD 0
    keywords := row.keywords.getD []
    entities := row.entities.getD []
    created_at := row.created_at.getD ""
    url := row.url.getD "" }

/-! ## Theorems -/

/-! ## Character-class facts -/
theorem isWordChar_lt128 {c : Char} (h : isWordChar c = true) : c.toNat < 128 := by
  simp only [isWordChar, Bool.or_eq_true, Bool.and_eq_true, decide_eq_true_eq,
    beq_iff_eq] at h
  omega

theorem keepChar_lt128 {c : Char} (h : keepChar c = true) (hw : isWS c = false) :
    c.toNat < 128 := by
  simp only [keepChar, Bool.or_eq_true, beq_iff_eq] at h
  rcases h with ((((((h | h) | h) | h) | h) | h) | h) | h
  · exact isWordChar_lt128 h
  · rw [h] at hw; cases hw
  all_goals subst h; decide

theorem toNat_ofNat_valid {n : Nat} (h : n.isValidChar) :
    (Char.ofNat n).toNat = n := by
  simp [Char.ofNat, h, Char.ofNatAux, Char.toNat, UInt32.toNat, BitVec.toNat_ofNatLt]

theorem pyLower_isWS (c : Char) : isWS (pyLower c) = isWS c := by
  unfold pyLower
  split
  · next h =>
    simp only [Bool.and_eq_true, decide_eq_true_eq] at h
    have hv : (c.toNat + 32).isValidChar := Or.inl (by omega)
    have h1 : isWS (Char.ofNat (c.toNat + 32)) = false := by
      simp only [isWS, toNat_ofNat_valid hv, Bool.or_eq_false_iff, beq_eq_false_iff_ne,
        ne_eq]
      omega
    have h2 : isWS c = false := by
      simp only [isWS, Bool.or_eq_false_iff, beq_eq_false_iff_ne, ne_eq]
      omega
    rw [h1, h2]
  · rfl

/-! ## `strip` lemmas -/
theorem dropTrailWs_cons_of_nil_ws {a : Char} {as : List Char}
    (h1 : dropTrailWs as = []) (h2 : isWS a = true) : dropTrailWs (a :: as) = [] := by
  unfold dropTrailWs
  rw [h1, h2]

theorem dropTrailWs_cons_of_nil_nws {a : Char} {as : List Char}
    (h1 : dropTrailWs as = []) (h2 : isWS a = false) : dropTrailWs (a :: as) = [a] := by
  unfold dropTrailWs
  rw [h1, h2]

theorem dropTrailWs_cons_of_cons {a r : Char} {as rs : List Char}
    (h1 : dropTrailWs as = r :: rs) : dropTrailWs (a :: as) = a :: r :: rs := by
  unfold dropTrailWs
  rw [h1]

theorem mem_dropTrailWs {c : Char} : ∀ {l : List Char}, c ∈ dropTrailWs l → c ∈ l := by
  intro l
  induction l with
  | nil => exact fun h => h
  | cons a as ih =>
    intro h
    cases hd : dropTrailWs as with
    | nil =>
      cases hw : isWS a with
      | false =>
        rw [dropTrailWs_cons_of_nil_nws hd hw] at h
        simp only [List.mem_singleton] at h
        subst h
        exact List.mem_cons_self _ _
      | true =>
        rw [dropTrailWs_cons_of_nil_ws hd hw] at h
        cases h
    | cons r rs =>
      rw [dropTrailWs_cons_of_cons hd] at h
      rcases List.mem_cons.mp h with rfl | h2
      · exact List.mem_cons_self _ _
      · exact List.mem_cons_of_mem _ (ih (hd ▸ h2))

theorem dropTrailWs_head : ∀ {l : List Char} {r : Char} {rs : List Char},
    dropTrailWs l = r :: rs → ∃ tl, l = r :: tl := by
  intro l r rs h
  cases l with
  | nil => cases h
  | cons a as =>
    cases hd : dropTrailWs as with
    | nil =>
      cases hw : isWS a with
      | false =>
        rw [dropTrailWs_cons_of_nil_nws hd hw] at h
        obtain ⟨rfl, -⟩ := List.cons.inj h
        exact ⟨as, rfl⟩
      | true =>
        rw [dropTrailWs_cons_of_nil_ws hd hw] at h
        cases h
    | cons q qs =>
      rw [dropTrailWs_cons_of_cons hd] at h
      obtain ⟨rfl, -⟩ := List.cons.inj h
      exact ⟨as, rfl⟩

theorem lastNonWs_dropTrailWs : ∀ (l : List Char), lastNonWs (dropTrailWs l) = true := by
  intro l
  induction l with
  | nil => rfl
  | cons a as ih =>
    cases hd : dropTrailWs as with
    | nil =>
      cases hw : isWS a with
      | false =>
        rw [dropTrailWs_cons_of_nil_nws hd hw]
        simp [lastNonWs, hw]
      | true =>
        rw [dropTrailWs_cons_of_nil_ws hd hw]
        rfl
    | cons r rs =>
      rw [dropTrailWs_cons_of_cons hd]
      have hstep : lastNonWs (a :: r :: rs) = lastNonWs (r :: rs) := rfl
      rw [hstep, ← hd]
      exact ih

theorem dropTrailWs_eq_self : ∀ {l : List Char}, lastNonWs l = true → dropTrailWs l = l := by
  intro l
  induction l with
  | nil => exact fun _ => rfl
  | cons a as ih =>
    intro h
    cases as with
    | nil =>
      simp only [lastNonWs, Bool.not_eq_true'] at h
      exact dropTrailWs_cons_of_nil_nws rfl h
    | cons b bs =>
      have h' : lastNonWs (b :: bs) = true := h
      rw [dropTrailWs_cons_of_cons (ih h')]

theorem headNonWs_dropTrailWs {l : List Char} (h : headNonWs l = true) :
    headNonWs (dropTrailWs l) = true := by
  cases hd : dropTrailWs l with
  | nil => rfl
  | cons r rs =>
    rcases dropTrailWs_head hd with ⟨tl, rfl⟩
    simpa [headNonWs] using h

theorem noTwoWs_tail {a : Char} {l : List Char} (h : noTwoWs (a :: l) = true) :
    noTwoWs l = true := by
  cases l with
  | nil => rfl
  | cons b bs =>
    simp only [noTwoWs, Bool.and_eq_true] at h
    exact h.2

theorem noTwoWs_cons {a : Char} {l : List Char} (h : noTwoWs l = true)
    (hp : ∀ b bs, l = b :: bs → (isWS a && isWS b) = false) :
    noTwoWs (a :: l) = true := by
  cases l with
  | nil => rfl
  | cons b bs => simp [noTwoWs, h, hp b bs rfl]

theorem noTwoWs_pair {a b : Char} {bs : List Char}
    (h : noTwoWs (a :: b :: bs) = true) : (isWS a && isWS b) = false := by
  simp only [noTwoWs, Bool.and_eq_true, Bool.not_eq_true'] at h
  exact h.1

theorem noTwoWs_dropTrailWs : ∀ {l : List Char}, noTwoWs l = true →
    noTwoWs (dropTrailWs l) = true := by
  intro l
  induction l with
  | nil => exact fun _ => rfl
  | cons a as ih =>
    intro h
    cases hd : dropTrailWs as with
    | nil =>
      cases hw : isWS a with
      | false => rw [dropTrailWs_cons_of_nil_nws hd hw]; rfl
      | true => rw [dropTrailWs_cons_of_nil_ws hd hw]; rfl
    | cons r rs =>
      rw [dropTrailWs_cons_of_cons hd]
      have hrr : noTwoWs (r :: rs) = true := by
        rw [← hd]
        exact ih (noTwoWs_tail h)
      refine noTwoWs_cons hrr ?_
      rintro b bs hb
      obtain ⟨rfl, -⟩ := List.cons.inj hb
      rcases dropTrailWs_head hd with ⟨tl, htl⟩
      subst htl
      exact noTwoWs_pair h

theorem noTwoWs_dropWhile {p : Char → Bool} :
    ∀ {l : List Char}, noTwoWs l = true → noTwoWs (l.dropWhile p) = true := by
  intro l
  induction l with
  | nil => exact fun _ => rfl
  | cons a as ih =>
    intro h
    rw [List.dropWhile_cons]
    split
    · exact ih (noTwoWs_tail h)
    · exact h

theorem headNonWs_dropWhile_isWS :
    ∀ (l : List Char), headNonWs (l.dropWhile isWS) = true := by
  intro l
  induction l with
  | nil => rfl
  | cons a as ih =>
    rw [List.dropWhile_cons]
    split
    · exact ih
    · next h =>
      simp only [Bool.not_eq_true] at h
      simp [headNonWs, h]

theorem mem_pstrip {c : Char} {l : List Char} (h : c ∈ pstrip l) : c ∈ l :=
  (List.dropWhile_sublist _).mem (mem_dropTrailWs h)

theorem headNonWs_pstrip (l : List Char) : headNonWs (pstrip l) = true :=
  headNonWs_dropTrailWs (headNonWs_dropWhile_isWS l)

theorem lastNonWs_pstrip (l : List Char) : lastNonWs (pstrip l) = true :=
  lastNonWs_dropTrailWs _

theorem noTwoWs_pstrip {l : List Char} (h : noTwoWs l = true) :
    noTwoWs (pstrip l) = true :=
  noTwoWs_dropTrailWs (noTwoWs_dropWhile h)

theorem pstrip_eq_self {l : List Char} (h1 : headNonWs l = true)
    (h2 : lastNonWs l = true) : pstrip l = l := by
  have hd : l.dropWhile isWS = l := by
    cases l with
    | nil => rfl
    | cons a as =>
      rw [List.dropWhile_cons]
      simp only [headNonWs, Bool.not_eq_true'] at h1
      simp [h1]
  rw [pstrip, hd, dropTrailWs_eq_self h2]

theorem dropTrailWs_length_le : ∀ (l : List Char), (dropTrailWs l).length ≤ l.length := by
  intro l
  induction l with
  | nil => exact Nat.le_refl _
  | cons a as ih =>
    cases hd : dropTrailWs as with
    | nil =>
      cases hw : isWS a with
      | false => rw [dropTrailWs_cons_of_nil_nws hd hw]; simp
      | true => rw [dropTrailWs_cons_of_nil_ws hd hw]; simp
    | cons r rs =>
      rw [dropTrailWs_cons_of_cons hd]
      have := hd ▸ ih
      simpa using Nat.succ_le_succ this

theorem pstrip_length_le (l : List Char) : (pstrip l).length ≤ l.length :=
  Nat.le_trans (dropTrailWs_length_le _) (List.dropWhile_sublist _).length_le

/-! ## Scanner lemmas -/
theorem urlStart_colon {l : List Char} {r : List Char} (h : urlStart l = some r) :
    ':' ∈ l := by
  unfold urlStart at h
  split at h
  · next h8 =>
    refine (List.take_sublist 8 l).mem ?_
    rw [h8]
    decide
  · split at h
    · next h7 =>
      refine (List.take_sublist 7 l).mem ?_
      rw [h7]
      decide
    · cases h

theorem rmUrlF_eq_self : ∀ (fuel : Nat) {l : List Char}, ':' ∉ l →
    rmUrlF fuel l = l := by
  intro fuel
  induction fuel with
  | zero => exact fun _ => rfl
  | succ n ih =>
    intro l hc
    cases l with
    | nil => rfl
    | cons c cs =>
      cases hu : urlStart (c :: cs) with
      | some rest => exact absurd (urlStart_colon hu) hc
      | none =>
        show (match urlStart (c :: cs) with
          | some rest => rmUrlF n rest
          | none => c :: rmUrlF n cs) = c :: cs
        rw [hu]
        rw [ih (fun hm => hc (List.mem_cons_of_mem _ hm))]

theorem removeUrls_eq_self {l : List Char} (hc : ':' ∉ l) : removeUrls l = l :=
  rmUrlF_eq_self _ hc

theorem tokStart_mark {m : Char} {l r : List Char} (h : tokStart m l = some r) :
    m ∈ l := by
  unfold tokStart at h
  split at h
  · next c d rest =>
    split at h
    · next hcd =>
      have := (Bool.and_eq_true _ _ ▸ hcd).1
      have hc : c = m := by simpa using this
      subst hc
      exact List.mem_cons_self _ _
    · cases h
  · cases h

theorem rmTokF_eq_self (m : Char) : ∀ (fuel : Nat) {l : List Char}, m ∉ l →
    rmTokF m fuel l = l := by
  intro fuel
  induction fuel with
  | zero => exact fun _ => rfl
  | succ n ih =>
    intro l hm
    cases l with
    | nil => rfl
    | cons c cs =>
      cases ht : tokStart m (c :: cs) with
      | some rest => exact absurd (tokStart_mark ht) hm
      | none =>
        show (match tokStart m (c :: cs) with
          | some rest => rmTokF m n rest
          | none => c :: rmTokF m n cs) = c :: cs
        rw [ht]
        rw [ih (fun hx => hm (List.mem_cons_of_mem _ hx))]

theorem removeMentions_eq_self {l : List Char} (h : '@' ∉ l) : removeMentions l = l :=
  rmTokF_eq_self _ _ h

theorem removeHashtags_eq_self {l : List Char} (h : '#' ∉ l) : removeHashtags l = l :=
  rmTokF_eq_self _ _ h

theorem nonAsciiStart_cons (a : Char) (as : List Char) :
    nonAsciiStart (a :: as) =
      if 128 ≤ a.toNat then some (as.dropWhile (fun x => 128 ≤ x.toNat)) else none := rfl

theorem rmNaF_eq_self : ∀ (fuel : Nat) {l : List Char},
    (∀ c ∈ l, c.toNat < 128) → rmNaF fuel l = l := by
  intro fuel
  induction fuel with
  | zero => exact fun _ => rfl
  | succ n ih =>
    intro l ha
    cases l with
    | nil => rfl
    | cons c cs =>
      have hc : c.toNat < 128 := ha c (List.mem_cons_self _ _)
      have hn : nonAsciiStart (c :: cs) = none := by
        rw [nonAsciiStart_cons, if_neg (by omega)]
      show (match nonAsciiStart (c :: cs) with
        | some rest => ' ' :: rmNaF n rest
        | none => c :: rmNaF n cs) = c :: cs
      rw [hn]
      rw [ih (fun x hx => ha x (List.mem_cons_of_mem _ hx))]

theorem removeNonAscii_eq_self {l : List Char} (h : ∀ c ∈ l, c.toNat < 128) :
    removeNonAscii l = l :=
  rmNaF_eq_self _ h

theorem mem_rmNaF : ∀ (fuel : Nat) {l : List Char} {c : Char},
    l.length ≤ fuel → c ∈ rmNaF fuel l → c = ' ' ∨ (c ∈ l ∧ c.toNat < 128) := by
  intro fuel
  induction fuel with
  | zero =>
    intro l c hl hc
    rw [List.length_eq_zero.mp (Nat.le_zero.mp hl)] at hc
    cases hc
  | succ n ih =>
    intro l c hl hc
    cases l with
    | nil => cases hc
    | cons a as =>
      by_cases h128 : 128 ≤ a.toNat
      · have hn : nonAsciiStart (a :: as) =
            some (as.dropWhile (fun x => 128 ≤ x.toNat)) := by
          rw [nonAsciiStart_cons, if_pos h128]
        rw [show rmNaF (n + 1) (a :: as) =
            ' ' :: rmNaF n (as.dropWhile (fun x => 128 ≤ x.toNat)) by
          show (match nonAsciiStart (a :: as) with
            | some rest => ' ' :: rmNaF n rest
            | none => a :: rmNaF n as) = _
          rw [hn]] at hc
        have hrl : (as.dropWhile (fun x => 128 ≤ x.toNat)).length ≤ n := by
          have := (List.dropWhile_sublist (fun x : Char => decide (128 ≤ x.toNat))
            (l := as)).length_le
          simp only [List.length_cons] at hl
          omega
        rcases List.mem_cons.mp hc with rfl | hc2
        · exact Or.inl rfl
        · rcases ih hrl hc2 with h | ⟨hmem, hlt⟩
          · exact Or.inl h
          · exact Or.inr ⟨List.mem_cons_of_mem _ ((List.dropWhile_sublist _).mem hmem),
              hlt⟩
      · have hn : nonAsciiStart (a :: as) = none := by
          rw [nonAsciiStart_cons, if_neg h128]
        rw [show rmNaF (n + 1) (a :: as) = a :: rmNaF n as by
          show (match nonAsciiStart (a :: as) with
            | some rest => ' ' :: rmNaF n rest
            | none => a :: rmNaF n as) = _
          rw [hn]] at hc
        rcases List.mem_cons.mp hc with rfl | hc2
        · exact Or.inr ⟨List.mem_cons_self _ _, by omega⟩
        · simp only [List.length_cons] at hl
          rcases ih (by omega) hc2 with h | ⟨hmem, hlt⟩
          · exact Or.inl h
          · exact Or.inr ⟨List.mem_cons_of_mem _ hmem, hlt⟩

theorem mem_removeNonAscii {l : List Char} {c : Char} (h : c ∈ removeNonAscii l) :
    c = ' ' ∨ (c ∈ l ∧ c.toNat < 128) :=
  mem_rmNaF _ (Nat.le_refl _) h

theorem wsStart_cons (a : Char) (as : List Char) :
    wsStart (a :: as) = if isWS a = true then some (as.dropWhile isWS) else none := by
  show (if isWS a then some (as.dropWhile isWS) else none) = _
  rfl

theorem clpF_cons_ws {n : Nat} {a : Char} {as : List Char} (hw : isWS a = true) :
    clpF (n + 1) (a :: as) = ' ' :: clpF n (as.dropWhile isWS) := by
  show (match wsStart (a :: as) with
    | some rest => ' ' :: clpF n rest
    | none => a :: clpF n as) = _
  rw [wsStart_cons, if_pos hw]

theorem clpF_cons_nws {n : Nat} {a : Char} {as : List Char} (hw : isWS a = false) :
    clpF (n + 1) (a :: as) = a :: clpF n as := by
  show (match wsStart (a :: as) with
    | some rest => ' ' :: clpF n rest
    | none => a :: clpF n as) = _
  rw [wsStart_cons, if_neg (by simp [hw])]

theorem mem_clpF : ∀ (fuel : Nat) {l : List Char} {c : Char},
    l.length ≤ fuel → c ∈ clpF fuel l → c = ' ' ∨ (c ∈ l ∧ isWS c = false) := by
  intro fuel
  induction fuel with
  | zero =>
    intro l c hl hc
    rw [List.length_eq_zero.mp (Nat.le_zero.mp hl)] at hc
    cases hc
  | succ n ih =>
    intro l c hl hc
    cases l with
    | nil => cases hc
    | cons a as =>
      simp only [List.length_cons] at hl
      cases hw : isWS a with
      | true =>
        rw [clpF_cons_ws hw] at hc
        have hrl : (as.dropWhile isWS).length ≤ n := by
          have := (List.dropWhile_sublist isWS (l := as)).length_le
          omega
        rcases List.mem_cons.mp hc with rfl | hc2
        · exact Or.inl rfl
        · rcases ih hrl hc2 with h | ⟨hmem, hnw⟩
          · exact Or.inl h
          · exact Or.inr ⟨List.mem_cons_of_mem _ ((List.dropWhile_sublist _).mem hmem),
              hnw⟩
      | false =>
        rw [clpF_cons_nws hw] at hc
        rcases List.mem_cons.mp hc with rfl | hc2
        · exact Or.inr ⟨List.mem_cons_self _ _, hw⟩
        · rcases ih (by omega) hc2 with h | ⟨hmem, hnw⟩
          · exact Or.inl h
          · exact Or.inr ⟨List.mem_cons_of_mem _ hmem, hnw⟩

theorem headNonWs_clpF : ∀ (fuel : Nat) {l : List Char},
    headNonWs l = true → headNonWs (clpF fuel l) = true := by
  intro fuel
  cases fuel with
  | zero => exact fun h => h
  | succ n =>
    intro l h
    cases l with
    | nil => rfl
    | cons a as =>
      simp only [headNonWs, Bool.not_eq_true'] at h
      rw [clpF_cons_nws h]
      simp [headNonWs, h]

theorem noTwoWs_clpF : ∀ (fuel : Nat) {l : List Char},
    l.length ≤ fuel → noTwoWs (clpF fuel l) = true := by
  intro fuel
  induction fuel with
  | zero =>
    intro l hl
    rw [List.length_eq_zero.mp (Nat.le_zero.mp hl)]
    rfl
  | succ n ih =>
    intro l hl
    cases l with
    | nil => rfl
    | cons a as =>
      simp only [List.length_cons] at hl
      cases hw : isWS a with
      | true =>
        rw [clpF_cons_ws hw]
        have hrl : (as.dropWhile isWS).length ≤ n := by
          have := (List.dropWhile_sublist isWS (l := as)).length_le
          omega
        refine noTwoWs_cons (ih hrl) ?_
        intro b bs hb
        have hhead : headNonWs (clpF n (as.dropWhile isWS)) = true :=
          headNonWs_clpF n (headNonWs_dropWhile_isWS as)
        rw [hb] at hhead
        simp only [headNonWs, Bool.not_eq_true'] at hhead
        simp [hhead]
      | false =>
        rw [clpF_cons_nws hw]
        refine noTwoWs_cons (ih (by omega)) ?_
        intro b bs hb
        simp [hw]

theorem clpF_eq_self : ∀ (fuel : Nat) {l : List Char}, l.length ≤ fuel →
    noTwoWs l = true → (∀ c ∈ l, isWS c = true → c = ' ') → clpF fuel l = l := by
  intro fuel
  induction fuel with
  | zero => exact fun _ _ _ => rfl
  | succ n ih =>
    intro l hl hnt hsp
    cases l with
    | nil => rfl
    | cons a as =>
      simp only [List.length_cons] at hl
      cases hw : isWS a with
      | true =>
        have ha : a = ' ' := hsp a (List.mem_cons_self _ _) hw
        rw [clpF_cons_ws hw]
        cases as with
        | nil =>
          have h0 : clpF n ([] : List Char) = [] := by cases n <;> rfl
          simp [h0, ha]
        | cons b bs =>
          have hb : isWS b = false := by
            have := noTwoWs_pair hnt
            rw [hw] at this
            simpa using this
          rw [List.dropWhile_cons, if_neg (by simp [hb])]
          rw [ih (by omega) (noTwoWs_tail hnt)
            (fun x hx hwx => hsp x (List.mem_cons_of_mem _ hx) hwx), ha]
      | false =>
        rw [clpF_cons_nws hw]
        rw [ih (by omega) (noTwoWs_tail hnt)
          (fun x hx hwx => hsp x (List.mem_cons_of_mem _ hx) hwx)]

theorem mem_collapseWs {l : List Char} {c : Char} (h : c ∈ collapseWs l) :
    c = ' ' ∨ (c ∈ l ∧ isWS c = false) :=
  mem_clpF _ (Nat.le_refl _) h

theorem noTwoWs_collapseWs (l : List Char) : noTwoWs (collapseWs l) = true :=
  noTwoWs_clpF _ (Nat.le_refl _)

theorem collapseWs_eq_self {l : List Char} (hnt : noTwoWs l = true)
    (hsp : ∀ c ∈ l, isWS c = true → c = ' ') : collapseWs l = l :=
  clpF_eq_self _ (Nat.le_refl _) hnt hsp

/-! ## Properties of `cleanChars` output -/
theorem cleanChars_mem (rE : List Char → List Char) (l : List Char) {c : Char}
    (hc : c ∈ cleanChars rE l) :
    ((keepChar c && !isWS c) || (c == ' ')) = true := by
  unfold cleanChars at hc
  rcases mem_collapseWs (mem_pstrip hc) with rfl | ⟨hmem, hnw⟩
  · simp
  · have hkeep := (List.mem_filter.mp hmem).2
    simp [hkeep, hnw]

theorem cleanChars_noTwoWs (rE : List Char → List Char) (l : List Char) :
    noTwoWs (cleanChars rE l) = true :=
  noTwoWs_pstrip (noTwoWs_collapseWs _)

theorem cleanChars_headNonWs (rE : List Char → List Char) (l : List Char) :
    headNonWs (cleanChars rE l) = true :=
  headNonWs_pstrip _

theorem cleanChars_lastNonWs (rE : List Char → List Char) (l : List Char) :
    lastNonWs (cleanChars rE l) = true :=
  lastNonWs_pstrip _

theorem cleanChars_lt128 (rE : List Char → List Char) (l : List Char) :
    ∀ c ∈ cleanChars rE l, c.toNat < 128 := by
  intro c hc
  have h := cleanChars_mem rE l hc
  rcases Bool.or_eq_true _ _ ▸ h with h1 | h2
  · have := Bool.and_eq_true _ _ ▸ h1
    exact keepChar_lt128 this.1 (by simpa using this.2)
  · have : c = ' ' := by simpa using h2
    subst this
    decide

theorem cleanChars_no_at (rE : List Char → List Char) (l : List Char) :
    '@' ∉ cleanChars rE l := by
  intro hc
  have := cleanChars_mem rE l hc
  revert this
  decide

theorem cleanChars_no_hash (rE : List Char → List Char) (l : List Char) :
    '#' ∉ cleanChars rE l := by
  intro hc
  have := cleanChars_mem rE l hc
  revert this
  decide

theorem cleanChars_no_colon (rE : List Char → List Char) (l : List Char) :
    ':' ∉ cleanChars rE l := by
  intro hc
  have := cleanChars_mem rE l hc
  revert this
  decide

/-- A list that already has the shape of cleaned text is a fixed point of the
whole `clean_text` pipeline (given that the emoji stripper fixes it). -/
theorem cleanChars_of_clean {m : List Char}
    (hmem : ∀ c ∈ m, ((keepChar c && !isWS c) || (c == ' ')) = true)
    (hnt : noTwoWs m = true) (hh : headNonWs m = true) (hl : lastNonWs m = true)
    (rE : List Char → List Char) (hE : rE m = m) : cleanChars rE m = m := by
  have h128 : ∀ c ∈ m, c.toNat < 128 := by
    intro c hc
    rcases Bool.or_eq_true _ _ ▸ hmem c hc with h1 | h2
    · have := Bool.and_eq_true _ _ ▸ h1
      exact keepChar_lt128 this.1 (by simpa using this.2)
    · have : c = ' ' := by simpa using h2
      subst this
      decide
  have hcolon : ':' ∉ m := by
    intro hc
    have := hmem ':' hc
    revert this
    decide
  have hat : '@' ∉ m := by
    intro hc
    have := hmem '@' hc
    revert this
    decide
  have hhash : '#' ∉ m := by
    intro hc
    have := hmem '#' hc
    revert this
    decide
  have hkeep : ∀ c ∈ m, keepChar c = true := by
    intro c hc
    rcases Bool.or_eq_true _ _ ▸ hmem c hc with h1 | h2
    · exact (Bool.and_eq_true _ _ ▸ h1).1
    · have : c = ' ' := by simpa using h2
      subst this
      decide
  have hsp : ∀ c ∈ m, isWS c = true → c = ' ' := by
    intro c hc hw
    rcases Bool.or_eq_true _ _ ▸ hmem c hc with h1 | h2
    · have := Bool.and_eq_true _ _ ▸ h1
      rw [hw] at this
      simpa using this.2
    · simpa using h2
  unfold cleanChars
  rw [hE, removeUrls_eq_self hcolon, removeMentions_eq_self hat,
    removeHashtags_eq_self hhash, removeNonAscii_eq_self h128,
    List.filter_eq_self.mpr hkeep, collapseWs_eq_self hnt hsp,
    pstrip_eq_self hh hl]

/-- C10: `clean_text` is idempotent — its output contains only ASCII word
characters, the safe punctuation `.,!?'-` and single interior spaces, with no
leading or trailing whitespace, so cleaning an already-cleaned text changes
nothing.  The emoji stripper (an external library to which `clean_text`
delegates first) is assumed to fix ASCII-only strings, which holds for
`emoji.replace_emoji` since every emoji sequence contains a non-ASCII code
point. -/
theorem c10_clean_text_idempotent (rE : List Char → List Char)
    (hE : ∀ l, (∀ c ∈ l, c.toNat < 128) → rE l = l) (s : String) :
    clean_text rE (clean_text rE s) = clean_text rE s := by
  show String.mk (cleanChars rE (String.mk (cleanChars rE s.data)).data) = _
  have hdata : (String.mk (cleanChars rE s.data)).data = cleanChars rE s.data := rfl
  rw [hdata]
  congr 1
  exact cleanChars_of_clean (fun c hc => cleanChars_mem rE s.data hc)
    (cleanChars_noTwoWs rE s.data) (cleanChars_headNonWs rE s.data)
    (cleanChars_lastNonWs rE s.data) rE
    (hE _ (cleanChars_lt128 rE s.data))

/-- Witness for C10 at a concrete input (emoji stripper instantiated with the
identity, which fixes ASCII lists). -/
theorem c10_witness :
    clean_text (fun l => l) (clean_text (fun l => l) "RT @user купить #sale now!! https://t.co/xyz 🤝") =
      clean_text (fun l => l) "RT @user купить #sale now!! https://t.co/xyz 🤝" :=
  c10_clean_text_idempotent (fun l => l) (fun _ _ => rfl) _

theorem hasTok_eq_false {mark : Char} :
    ∀ {l : List Char}, mark ∉ l → hasTok mark l = false := by
  intro l
  induction l with
  | nil => exact fun _ => rfl
  | cons c cs ih =>
    intro h
    cases cs with
    | nil => rfl
    | cons d ds =>
      show ((c == mark && isWordChar d) || hasTok mark (d :: ds)) = false
      have hc : c ≠ mark := fun hcm => h (hcm ▸ List.mem_cons_self _ _)
      have ht : hasTok mark (d :: ds) = false :=
        ih (fun hm => h (List.mem_cons_of_mem _ hm))
      simp [hc, ht]

theorem hasUrl_eq_false : ∀ {l : List Char}, ':' ∉ l → hasUrl l = false := by
  intro l
  induction l with
  | nil => exact fun _ => rfl
  | cons c cs ih =>
    intro h
    show ((urlStart (c :: cs)).isSome || hasUrl cs) = false
    have hu : urlStart (c :: cs) = none := by
      cases hu : urlStart (c :: cs) with
      | none => rfl
      | some r => exact absurd (urlStart_colon hu) h
    have ht : hasUrl cs = false := ih (fun hm => h (List.mem_cons_of_mem _ hm))
    simp [hu, ht]

/-- C7: for every raw text containing an `@mention` token, a `#hashtag`
token and a URL token, the output of `clean_text` contains none of these:
the final character-class pass keeps only `[A-Za-z0-9_]`, whitespace and
`.,!?'-`, so no `@`, `#` or `:` (hence no `://`) can survive in the cleaned
text. -/
theorem c7_clean_text_strips_tokens (rE : List Char → List Char) (s : String)
    (hm : hasTok '@' s.data = true) (hh : hasTok '#' s.data = true)
    (hu : hasUrl s.data = true) :
    hasTok '@' (clean_text rE s).data = false ∧
    hasTok '#' (clean_text rE s).data = false ∧
    hasUrl (clean_text rE s).data = false := by
  have hdata : (clean_text rE s).data = cleanChars rE s.data := rfl
  rw [hdata]
  exact ⟨hasTok_eq_false (cleanChars_no_at rE s.data),
    hasTok_eq_false (cleanChars_no_hash rE s.data),
    hasUrl_eq_false (cleanChars_no_colon rE s.data)⟩

/-- Witness for C7 at a concrete raw text containing all three token kinds. -/
theorem c7_witness :
    (hasTok '@' "hey @user check #tag at https://x.co please".data = true ∧
     hasTok '#' "hey @user check #tag at https://x.co please".data = true ∧
     hasUrl "hey @user check #tag at https://x.co please".data = true) ∧
    (hasTok '@' (clean_text (fun l => l) "hey @user check #tag at https://x.co please").data = false ∧
     hasTok '#' (clean_text (fun l => l) "hey @user check #tag at https://x.co please").data = false ∧
     hasUrl (clean_text (fun l => l) "hey @user check #tag at https://x.co please").data = false) :=
  ⟨⟨by decide, by decide, by decide⟩,
    c7_clean_text_strips_tokens (fun l => l) _ (by decide) (by decide) (by decide)⟩

theorem headNonWs_lowerChars (l : List Char) :
    headNonWs (lowerChars l) = headNonWs l := by
  cases l with
  | nil => rfl
  | cons c cs =>
    show headNonWs (pyLower c :: List.map pyLower cs) = _
    simp [headNonWs, pyLower_isWS]

theorem lastNonWs_lowerChars : ∀ (l : List Char),
    lastNonWs (lowerChars l) = lastNonWs l := by
  intro l
  induction l with
  | nil => rfl
  | cons c cs ih =>
    cases cs with
    | nil =>
      show lastNonWs [pyLower c] = lastNonWs [c]
      simp [lastNonWs, pyLower_isWS]
    | cons d ds =>
      have h1 : lastNonWs (pyLower c :: pyLower d :: List.map pyLower ds) =
          lastNonWs (pyLower d :: List.map pyLower ds) := rfl
      have h2 : lastNonWs (c :: d :: ds) = lastNonWs (d :: ds) := rfl
      show lastNonWs (pyLower c :: pyLower d :: List.map pyLower ds) = _
      rw [h1, h2]
      exact ih

/-- Lower-casing cleaned text does not disturb its stripped shape, so the
`len(cleaned.strip())` that `is_spammy` computes is just the cleaned length. -/
theorem pstrip_lower_cleanChars (rE : List Char → List Char) (l : List Char) :
    (pstrip (lowerChars (cleanChars rE l))).length = (cleanChars rE l).length := by
  rw [pstrip_eq_self
    (by rw [headNonWs_lowerChars]; exact cleanChars_headNonWs rE l)
    (by rw [lastNonWs_lowerChars]; exact cleanChars_lastNonWs rE l)]
  exact List.length_map _ _

/-- C4: `is_spammy` returns `true` exactly when at least one of the five
conditions of the spec holds — cleaned text shorter than 15 characters, more
than six `#` characters in the raw text, the trimmed raw text matching the
pure-hashtag pattern, a link (`"http"` occurring) together with fewer than 5
whitespace-delimited tokens, or the trimmed raw text starting
case-insensitively with `"rt "`.  The sequential early-return checks are
equivalent to the independent disjunction. -/
theorem c4_is_spammy_iff (rE : List Char → List Char) (raw : String) :
    is_spammy rE raw =
      (decide ((clean_text rE raw).length < 15) ||
       decide (6 < raw.data.count '#') ||
       hashtagOnly (pstrip raw.data) ||
       (containsHttp raw.data && decide (wsTokens raw.data < 5)) ||
       startsRt (pstrip (lowerChars raw.data))) := by
  have hlen : (clean_text rE raw).length = (cleanChars rE raw.data).length := rfl
  show (if (pstrip (lowerChars (cleanChars rE raw.data))).length < 15 then true
    else if 6 < raw.data.count '#' then true
    else if hashtagOnly (pstrip raw.data) then true
    else if containsHttp raw.data && decide (wsTokens raw.data < 5) then true
    else if startsRt (pstrip (lowerChars raw.data)) then true
    else false) = _
  rw [hlen]
  simp only [pstrip_lower_cleanChars]
  split_ifs with h1 h2 h3 h4 h5 <;> simp_all

/-- C6: `translate_to_english` is best-effort and never propagates an
error: texts shorter than 3 characters (in particular the empty text) are
returned unchanged, and on detector failure or translator failure the
original input is returned unchanged.  (Totality — "never raises" — holds by
construction: the embedding returns a `String` for every input and every
behaviour of the two fallible collaborators.) -/
theorem c6_translate_best_effort (detect translate : String → Option String)
    (text : String) :
    (text.length < 3 → translate_to_english detect translate text = text) ∧
    (detect text = none → translate_to_english detect translate text = text) ∧
    (∀ lang, detect text = some lang → lang ≠ "en" → translate text = none →
      translate_to_english detect translate text = text) := by
  refine ⟨?_, ?_, ?_⟩
  · intro hlen
    have hp : (pstrip text.data).length < 3 :=
      Nat.lt_of_le_of_lt (pstrip_length_le _) hlen
    unfold translate_to_english
    rw [if_pos (by simp [hp])]
  · intro hdet
    unfold translate_to_english
    split
    · rfl
    · rw [hdet]
  · intro lang hdet hne htr
    unfold translate_to_english
    split
    · rfl
    · rw [hdet]
      show (if lang ≠ "en" then
        (match translate text with | none => text | some t => t) else text) = text
      rw [if_pos hne, htr]

/-- Witness for C6: a Spanish text with a failing translator comes back
unchanged, and a 2-character text is returned unchanged. -/
theorem c6_witness :
    translate_to_english (fun _ => some "es") (fun _ => none) "hola mundo" =
      "hola mundo" ∧
    translate_to_english (fun _ => some "es") (fun _ => some "cat") "ab" = "ab" :=
  ⟨(c6_translate_best_effort (fun _ => some "es") (fun _ => none) "hola mundo").2.2
      "es" rfl (by decide) rfl,
   (c6_translate_best_effort (fun _ => some "es") (fun _ => some "cat") "ab").1
      (by decide)⟩

theorem batchAux_join {α : Type} : ∀ (fuel : Nat) (l : List α) (bs : Nat),
    0 < bs → l.length ≤ fuel → (batchAux fuel l bs).flatten = l := by
  intro fuel
  induction fuel with
  | zero =>
    intro l bs _ hl
    rw [List.length_eq_zero.mp (Nat.le_zero.mp hl)]
    rfl
  | succ n ih =>
    intro l bs hbs hl
    cases l with
    | nil => rfl
    | cons a as =>
      show ((a :: as).take bs :: batchAux n ((a :: as).drop bs) bs).flatten = a :: as
      rw [List.flatten_cons]
      rw [ih ((a :: as).drop bs) bs hbs
        (by rw [List.length_drop]; simp only [List.length_cons] at hl ⊢; omega)]
      exact List.take_append_drop _ _

theorem batchify_join {α : Type} (l : List α) (bs : Nat) (hbs : 0 < bs) :
    (_batchify l bs).flatten = l :=
  batchAux_join _ _ _ hbs (Nat.le_refl _)

theorem sentimentsJoined_length_le (classify : List String → Option (List RawLS))
    (bs : Nat) (texts : List String) (hbs : 0 < bs)
    (hc : ∀ b r, classify b = some r → r.length ≤ b.length) :
    (sentimentsJoined classify bs texts).length ≤ texts.length := by
  have key : ∀ batches : List (List String),
      ((batches.map (process_batch classify)).flatten).length ≤
        batches.flatten.length := by
    intro batches
    induction batches with
    | nil => exact Nat.le_refl _
    | cons b bsl ih =>
      simp only [List.map_cons, List.flatten_cons, List.length_append]
      have hb : (process_batch classify b).length ≤ b.length := by
        unfold process_batch
        cases hcb : classify b with
        | some res => simpa using hc b res hcb
        | none => simp
      omega
  have := key (_batchify texts bs)
  rwa [batchify_join texts bs hbs] at this

/-- C2: `process_dataframe` produces exactly one enriched row per input
row.  The sentiment list always has exactly the input length (assuming the
classifier contract that a successful batch call returns at most one result
per input text); when the classifier raises on every batch the output is
all NEUTRAL/0.0 of length N; and whenever the joined batch results fall
short of N the tail is padded with NEUTRAL/0.0 entries. -/
theorem c2_enrich_count (kw : String → List String)
    (ent : String → List (String × String))
    (classify : List String → Option (List RawLS)) (bs : Nat)
    (texts : List String) (hbs : 0 < bs)
    (hc : ∀ b r, classify b = some r → r.length ≤ b.length) :
    (run_sentiments classify bs texts).length = texts.length ∧
    (process_texts kw ent classify bs texts).length = texts.length ∧
    ((∀ b ∈ _batchify texts bs, classify b = none) →
      run_sentiments classify bs texts =
        List.replicate texts.length { label := "NEUTRAL", score := 0 }) ∧
    ((sentimentsJoined classify bs texts).length < texts.length →
      run_sentiments classify bs texts =
        sentimentsJoined classify bs texts ++
          List.replicate
            (texts.length - (sentimentsJoined classify bs texts).length)
            { label := "NEUTRAL", score := 0 }) := by
  have hle := sentimentsJoined_length_le classify bs texts hbs hc
  have hlen : (run_sentiments classify bs texts).length = texts.length := by
    unfold run_sentiments
    split
    · next h => simp only [List.length_append, List.length_replicate]; omega
    · next h => omega
  refine ⟨hlen, ?_, ?_, ?_⟩
  · unfold process_texts
    rw [List.length_zipWith, hlen]
    exact Nat.min_self _
  · intro hall
    have hj : sentimentsJoined classify bs texts =
        texts.map (fun _ => ({ label := "NEUTRAL", score := 0 } : LabelScore)) := by
      unfold sentimentsJoined batchResults
      have : ∀ b ∈ _batchify texts bs,
          process_batch classify b =
            b.map (fun _ => ({ label := "NEUTRAL", score := 0 } : LabelScore)) := by
        intro b hb
        unfold process_batch
        rw [hall b hb]
      rw [List.map_congr_left this, ← List.map_flatten, batchify_join texts bs hbs]
    have hjlen : (sentimentsJoined classify bs texts).length = texts.length := by
      rw [hj, List.length_map]
    unfold run_sentiments
    rw [if_neg (by omega)]
    rw [hj]
    exact List.eq_replicate_iff.mpr ⟨by simp, by simp⟩
  · intro hlt
    unfold run_sentiments
    rw [if_pos hlt]

/-- Witness for C2: three texts, batch size 2, classifier raising on every
batch — the output is exactly three NEUTRAL/0.0 rows. -/
theorem c2_witness :
    run_sentiments (fun _ => none) 2 ["a", "b", "c"] =
      List.replicate 3 { label := "NEUTRAL", score := 0 } :=
  (c2_enrich_count (fun _ => []) (fun _ => []) (fun _ => none) 2 ["a", "b", "c"]
    (by decide) (fun _ _ h => Option.noConfusion h)).2.2.1 (fun _ _ => rfl)

theorem filter_key_range' {β : Type} (d : β) :
    ∀ (jobs : List β) (k i : Nat),
      ((List.range' k jobs.length).zip jobs).filter (fun p => p.1 == i) =
        if k ≤ i ∧ i < k + jobs.length then [(i, jobs.getD (i - k) d)] else [] := by
  intro jobs
  induction jobs with
  | nil =>
    intro k i
    rw [if_neg (by simp only [List.length_nil]; omega)]
    rfl
  | cons j js ih =>
    intro k i
    simp only [List.length_cons]
    rw [List.range'_succ]
    show List.filter (fun p => p.1 == i) ((k, j) :: (List.range' (k + 1) js.length).zip js) = _
    rw [List.filter_cons]
    by_cases hk : k = i
    · subst hk
      rw [if_pos (by simp)]
      rw [ih (k + 1) k, if_neg (by omega)]
      rw [if_pos (by omega)]
      have h0 : k - k = 0 := by omega
      rw [h0, List.getD_cons_zero]
    · rw [if_neg (by simp [hk])]
      rw [ih (k + 1) i]
      by_cases hin : k ≤ i ∧ i < k + (js.length + 1)
      · have hk1 : k + 1 ≤ i ∧ i < (k + 1) + js.length := by omega
        rw [if_pos hk1, if_pos hin]
        have hsub : i - k = (i - (k + 1)) + 1 := by omega
        rw [hsub, List.getD_cons_succ]
      · rw [if_neg (by omega), if_neg hin]

theorem range_map_getD {β : Type} (d : β) :
    ∀ (l : List β), (List.range l.length).map (fun i => l.getD i d) = l := by
  intro l
  induction l with
  | nil => rfl
  | cons x xs ih =>
    simp only [List.length_cons, List.range_succ_eq_map, List.map_cons, List.map_map]
    rw [List.getD_cons_zero]
    congr 1

/-- Reassembling any completion-order permutation of the canonical batch
enumeration yields the batch-order concatenation. -/
theorem assembleByIndex_of_perm (jobs : List (List LabelScore))
    (completed : List (Nat × List LabelScore))
    (hp : completed.Perm ((List.range jobs.length).zip jobs)) :
    assembleByIndex jobs.length completed = jobs.flatten := by
  unfold assembleByIndex
  have hmap : (List.range jobs.length).map
      (fun i => ((completed.filter (fun p => p.1 == i)).map Prod.snd).flatten) = jobs := by
    have hpt : ∀ i ∈ List.range jobs.length,
        ((completed.filter (fun p => p.1 == i)).map Prod.snd).flatten =
          jobs.getD i [] := by
      intro i hi
      have hlt : i < jobs.length := List.mem_range.mp hi
      have hf : completed.filter (fun p => p.1 == i) = [(i, jobs.getD i [])] := by
        have hperm := hp.filter (fun p => p.1 == i)
        rw [List.range_eq_range', filter_key_range' [] jobs 0 i,
          if_pos (by omega)] at hperm
        simpa using List.perm_singleton.mp (by simpa using hperm)
      rw [hf]
      simp
    rw [List.map_congr_left hpt]
    exact range_map_getD [] jobs
  rw [hmap]

/-- C3: with a per-item classifier, the batched, concurrently executed
sentiment pass is equivalent to classifying all texts sequentially in input
order — result `i` belongs to input text `i` — for every batch size and
every completion order of the batches (hence for every worker count). -/
theorem c3_order_preserved (g : String → RawLS) (texts : List String) (bs : Nat)
    (hbs : 0 < bs) (completed : List (Nat × List LabelScore))
    (hp : completed.Perm
      ((List.range (batchResults (liftBatch g) bs texts).length).zip
        (batchResults (liftBatch g) bs texts))) :
    assembleByIndex (batchResults (liftBatch g) bs texts).length completed =
      seqClassify g texts ∧
    run_sentiments (liftBatch g) bs texts = seqClassify g texts := by
  have hjoin : (batchResults (liftBatch g) bs texts).flatten = seqClassify g texts := by
    unfold batchResults
    have hpb : ∀ b ∈ _batchify texts bs,
        process_batch (liftBatch g) b = b.map (fun t => post_process (g t)) := by
      intro b _
      unfold process_batch liftBatch
      simp [List.map_map, Function.comp]
    rw [List.map_congr_left hpb, ← List.map_flatten, batchify_join texts bs hbs]
    rfl
  refine ⟨?_, ?_⟩
  · rw [assembleByIndex_of_perm _ _ hp, hjoin]
  · unfold run_sentiments
    have hlen : (sentimentsJoined (liftBatch g) bs texts).length = texts.length := by
      unfold sentimentsJoined
      rw [hjoin]
      exact List.length_map _ _
    rw [if_neg (by omega)]
    unfold sentimentsJoined
    rw [hjoin]

/-- Witness for C3: three texts in three batches, where batch 1 "completes"
before batch 0 — the reassembled output is still in input order. -/
theorem c3_witness :
    assembleByIndex
        (batchResults (liftBatch (fun t => ⟨some t, some 0⟩)) 1 ["x", "y", "z"]).length
        [(1, [post_process ⟨some "y", some 0⟩]), (0, [post_process ⟨some "x", some 0⟩]),
         (2, [post_process ⟨some "z", some 0⟩])] =
      seqClassify (fun t => ⟨some t, some 0⟩) ["x", "y", "z"] ∧
    run_sentiments (liftBatch (fun t => ⟨some t, some 0⟩)) 1 ["x", "y", "z"] =
      seqClassify (fun t => ⟨some t, some 0⟩) ["x", "y", "z"] := by
  refine c3_order_preserved (fun t => ⟨some t, some 0⟩) ["x", "y", "z"] 1
    (by decide) _ ?_
  have hc : (List.range
        (batchResults (liftBatch (fun t => ⟨some t, some 0⟩)) 1 ["x", "y", "z"]).length).zip
      (batchResults (liftBatch (fun t => ⟨some t, some 0⟩)) 1 ["x", "y", "z"]) =
      [(0, [post_process ⟨some "x", some 0⟩]), (1, [post_process ⟨some "y", some 0⟩]),
       (2, [post_process ⟨some "z", some 0⟩])] := rfl
  rw [hc]
  exact List.Perm.swap _ _ _

/-! ## C5 / C1 lemmas -/
theorem fetchAccum_cons_true {rE : List Char → List Char}
    {detect translate : String → Option String} {kw : String} {limit : Nat}
    {t : Tweet} {ts : List Tweet} {acc : List FormattedTweet}
    (h : is_spammy rE t.rawContent = true) :
    fetchAccum rE detect translate kw limit (t :: ts) acc =
      if limit ≤ acc.length then acc
      else fetchAccum rE detect translate kw limit ts acc := by
  simp [fetchAccum, h]

theorem fetchAccum_cons_false {rE : List Char → List Char}
    {detect translate : String → Option String} {kw : String} {limit : Nat}
    {t : Tweet} {ts : List Tweet} {acc : List FormattedTweet}
    (h : is_spammy rE t.rawContent = false) :
    fetchAccum rE detect translate kw limit (t :: ts) acc =
      if limit ≤ (acc ++ [{ format_tweet rE detect translate t kw acc.length with
          source := some "twitter" }]).length
      then acc ++ [{ format_tweet rE detect translate t kw acc.length with
          source := some "twitter" }]
      else fetchAccum rE detect translate kw limit ts
        (acc ++ [{ format_tweet rE detect translate t kw acc.length with
          source := some "twitter" }]) := by
  simp [fetchAccum, h]

theorem fetchAccum_source (rE : List Char → List Char)
    (detect translate : String → Option String) (kw : String) (limit : Nat) :
    ∀ (stream : List Tweet) (acc : List FormattedTweet),
      (∀ t ∈ acc, t.source = some "twitter") →
      ∀ t ∈ fetchAccum rE detect translate kw limit stream acc,
        t.source = some "twitter" := by
  intro stream
  induction stream with
  | nil => exact fun acc hacc => hacc
  | cons tw tws ih =>
    intro acc hacc
    by_cases hsp : is_spammy rE tw.rawContent = true
    · rw [fetchAccum_cons_true hsp]
      split
      · exact hacc
      · exact ih acc hacc
    · have hsp' : is_spammy rE tw.rawContent = false := by
        simpa using hsp
      rw [fetchAccum_cons_false hsp']
      have hacc' : ∀ t ∈ acc ++
          [{ format_tweet rE detect translate tw kw acc.length with
              source := some "twitter" }], t.source = some "twitter" := by
        intro t ht
        rcases List.mem_append.mp ht with h | h
        · exact hacc t h
        · rcases List.mem_singleton.mp h with rfl
          rfl
      split
      · exact hacc'
      · exact ih _ hacc'

theorem mem_foldl_append {α β : Type} (f : β → List α) :
    ∀ (qs : List β) (acc : List α) (x : α),
      x ∈ qs.foldl (fun acc q => acc ++ f q) acc →
      x ∈ acc ∨ ∃ q ∈ qs, x ∈ f q := by
  intro qs
  induction qs with
  | nil => exact fun acc x hx => Or.inl hx
  | cons q qs ih =>
    intro acc x hx
    rcases ih (acc ++ f q) x hx with h | ⟨q', hq', hx'⟩
    · rcases List.mem_append.mp h with h | h
      · exact Or.inl h
      · exact Or.inr ⟨q, List.mem_cons_self _ _, h⟩
    · exact Or.inr ⟨q', List.mem_cons_of_mem _ hq', hx'⟩

theorem mem_mergeDedup :
    ∀ {fetched results : List FormattedTweet} {x : FormattedTweet},
      x ∈ mergeDedup results fetched → x ∈ results ∨ x ∈ fetched := by
  intro fetched
  induction fetched with
  | nil => exact fun hx => Or.inl hx
  | cons ft fts ih =>
    intro results x hx
    have hx' : x ∈ mergeDedup
        (if results.any (fun r => r.id == ft.id) then results else results ++ [ft])
        fts := hx
    rcases ih hx' with h | h
    · split at h
      · exact Or.inl h
      · rcases List.mem_append.mp h with h | h
        · exact Or.inl h
        · exact Or.inr (List.mem_cons.mpr (Or.inl (List.mem_singleton.mp h)))
    · exact Or.inr (List.mem_cons_of_mem _ h)

theorem mergeDedup_nodup :
    ∀ (fetched results : List FormattedTweet),
      (results.map FormattedTweet.id).Nodup →
      ((mergeDedup results fetched).map FormattedTweet.id).Nodup := by
  intro fetched
  induction fetched with
  | nil => exact fun results h => h
  | cons ft fts ih =>
    intro results h
    show ((mergeDedup
      (if results.any (fun r => r.id == ft.id) then results else results ++ [ft])
      fts).map FormattedTweet.id).Nodup
    apply ih
    split
    · exact h
    · next hany =>
      rw [List.map_append, List.nodup_append]
      refine ⟨h, List.nodup_singleton _, ?_⟩
      intro a ha
      simp only [List.map_cons, List.map_nil, List.mem_singleton]
      rcases List.mem_map.mp ha with ⟨r, hr, rfl⟩
      intro hEq
      exact hany (List.any_eq_true.mpr ⟨r, hr, by simp [hEq]⟩)

theorem kwLoop_step (rE : List Char → List Char)
    (detect translate : String → Option String)
    (search : String → Nat → List Tweet) (pk mr : Nat) (kw : String)
    (kws : List String) (results : List FormattedTweet) :
    kwLoop rE detect translate search pk mr (kw :: kws) results =
      if mr ≤ (mergeDedup results
          (fetch_tweets_for_keyword rE detect translate search kw pk)).length
      then mergeDedup results
        (fetch_tweets_for_keyword rE detect translate search kw pk)
      else kwLoop rE detect translate search pk mr kws
        (mergeDedup results
          (fetch_tweets_for_keyword rE detect translate search kw pk)) := rfl

theorem kwLoop_nodup (rE : List Char → List Char)
    (detect translate : String → Option String)
    (search : String → Nat → List Tweet) (pk mr : Nat) :
    ∀ (kws : List String) (results : List FormattedTweet),
      (results.map FormattedTweet.id).Nodup →
      ((kwLoop rE detect translate search pk mr kws results).map
        FormattedTweet.id).Nodup := by
  intro kws
  induction kws with
  | nil => exact fun results h => h
  | cons kw kws ih =>
    intro results h
    rw [kwLoop_step]
    split
    · exact mergeDedup_nodup _ _ h
    · exact ih _ (mergeDedup_nodup _ _ h)

theorem kwLoop_source (rE : List Char → List Char)
    (detect translate : String → Option String)
    (search : String → Nat → List Tweet) (pk mr : Nat) :
    ∀ (kws : List String) (results : List FormattedTweet),
      (∀ t ∈ results, t.source = some "twitter") →
      ∀ t ∈ kwLoop rE detect translate search pk mr kws results,
        t.source = some "twitter" := by
  intro kws
  induction kws with
  | nil => exact fun results h => h
  | cons kw kws ih =>
    intro results h
    have hmerge : ∀ t ∈ mergeDedup results
        (fetch_tweets_for_keyword rE detect translate search kw pk),
        t.source = some "twitter" := by
      intro t ht
      rcases mem_mergeDedup ht with h' | h'
      · exact h t h'
      · exact fetchAccum_source rE detect translate kw pk _ [] (fun _ h0 => nomatch h0)
          t h'
    rw [kwLoop_step]
    split
    · exact hmerge
    · exact ih _ hmerge

theorem fetch_tweets_source (rE : List Char → List Char)
    (detect translate : String → Option String)
    (search : String → Nat → List Tweet) (query : String) (mr : Nat)
    (keywords : Option (List String)) :
    ∀ t ∈ fetch_tweets rE detect translate search query mr keywords,
      t.source = some "twitter" := by
  cases keywords with
  | none =>
    exact fetchAccum_source rE detect translate query mr _ [] (fun _ h0 => nomatch h0)
  | some kws =>
    cases kws with
    | nil =>
      exact fetchAccum_source rE detect translate query mr _ [] (fun _ h0 => nomatch h0)
    | cons kw kws =>
      exact kwLoop_source rE detect translate search _ mr (kw :: kws) []
        (fun _ h0 => nomatch h0)

theorem reddit_results_source (redditSearch : String → Nat → Nat → List RedditPost)
    (query : String) (rp rc : Nat) (keywords : Option (List String)) :
    ∀ r ∈ reddit_results redditSearch query rp rc keywords, r.source = "reddit" := by
  intro r hr
  rcases mem_foldl_append _ _ _ _ hr with h | ⟨q, _, hq⟩
  · cases h
  · rcases List.mem_map.mp hq with ⟨p, _, rfl⟩
    rfl

/-- C5: one Collector run returns all accepted microblog posts first, in
fetch order, followed by all forum posts, in fetch order, each element
tagged with its source: the combined list is exactly the fetched tweet list
(every member tagged `"twitter"`, so `setdefault` is the identity) followed
by the normalized forum items (every member tagged `"reddit"`). -/
theorem c5_combined_order (rE : List Char → List Char)
    (detect translate : String → Option String)
    (search : String → Nat → List Tweet)
    (redditSearch : String → Nat → Nat → List RedditPost)
    (query : String) (mr rp rc : Nat) (keywords : Option (List String)) :
    scrape_and_save rE detect translate search redditSearch query mr rp rc keywords =
      (fetch_tweets rE detect translate search query mr keywords).map
        CombinedItem.tw ++
      (reddit_results redditSearch query rp rc keywords).map CombinedItem.rd ∧
    (∀ t ∈ fetch_tweets rE detect translate search query mr keywords,
      t.source = some "twitter") ∧
    (∀ r ∈ reddit_results redditSearch query rp rc keywords,
      r.source = "reddit") := by
  refine ⟨?_, fetch_tweets_source rE detect translate search query mr keywords,
    reddit_results_source redditSearch query rp rc keywords⟩
  simp only [scrape_and_save]
  congr 1
  apply List.map_congr_left
  intro t ht
  have hsrc := fetch_tweets_source rE detect translate search query mr keywords t ht
  rw [hsrc, Option.getD_some, ← hsrc]

/-- C1 counterexample: one Collector run in which two combined items
share an id.  The two forum queries (`keywords = ["a", "b"]`) both return
`examplePost`; each pass appends it without any id-deduplication (and, as
coded, with id `None`, since the collector reads the absent `post_id` key),
so the combined list carries the same id twice — refuting "no two posts in
the returned combined list share an id, regardless of which keyword or
source produced them". -/
theorem c1_counterexample :
    ((scrape_and_save (fun l => l) (fun _ => none) (fun _ => none)
        (fun _ _ => []) (fun _ _ _ => [examplePost]) "q" 10 25 30
        (some ["a", "b"])).map CombinedItem.idOpt = [none, none]) ∧
    ¬ ((scrape_and_save (fun l => l) (fun _ => none) (fun _ => none)
        (fun _ _ => []) (fun _ _ _ => [examplePost]) "q" 10 25 30
        (some ["a", "b"])).map CombinedItem.idOpt).Nodup := by
  refine ⟨rfl, ?_⟩
  intro h
  rw [show (scrape_and_save (fun l => l) (fun _ => none) (fun _ => none)
      (fun _ _ => []) (fun _ _ _ => [examplePost]) "q" 10 25 30
      (some ["a", "b"])).map CombinedItem.idOpt = [none, none] from rfl] at h
  simp at h

/-- C1 amended: deduplication by id holds for the microblog half of the
run — `fetch_tweets` with a non-empty keyword list never retains two posts
with the same id, regardless of which keyword produced them; in particular
with keywords `["a","b"]` whose two fetches share the common id "1", that id
appears exactly once.  (Forum items are appended by `scrape_and_save`
without any id-based deduplication — see the counterexample.) -/
theorem c1_amended_microblog_dedup :
    (∀ (rE : List Char → List Char) (detect translate : String → Option String)
      (search : String → Nat → List Tweet) (query : String) (mr : Nat)
      (kw : String) (kws : List String),
      ((fetch_tweets rE detect translate search query mr
        (some (kw :: kws))).map FormattedTweet.id).Nodup) ∧
    (fetch_tweets (fun l => l) (fun _ => none) (fun _ => none) searchAB "q" 10
      (some ["a", "b"])).map FormattedTweet.id = ["1", "2"] := by
  constructor
  · intro rE detect translate search query mr kw kws
    exact kwLoop_nodup rE detect translate search _ mr (kw :: kws) []
      List.nodup_nil
  · rfl

theorem bucketStep_pos {b : Buckets} {row : DFRow}
    (h : rowLabel row = "POSITIVE") :
    bucketStep b row = { b with positive := b.positive ++ [rowText row] } := by
  unfold bucketStep
  rw [if_neg (by simp [h]), if_pos h]

theorem bucketStep_neg {b : Buckets} {row : DFRow}
    (h1 : rowLabel row ≠ "POSITIVE") (h2 : rowLabel row = "NEGATIVE") :
    bucketStep b row = { b with negative := b.negative ++ [rowText row] } := by
  unfold bucketStep
  rw [if_neg (by simp [h2]), if_neg h1, if_pos h2]

theorem bucketStep_neu {b : Buckets} {row : DFRow}
    (h1 : rowLabel row ≠ "POSITIVE") (h2 : rowLabel row ≠ "NEGATIVE") :
    bucketStep b row = { b with neutral := b.neutral ++ [rowText row] } := by
  unfold bucketStep
  by_cases h3 : rowLabel row = "NEUTRAL"
  · rw [if_neg (by simp [h3]), if_neg h1, if_neg h2]
  · rw [if_pos ⟨h1, h2, h3⟩]

theorem bucketsAux : ∀ (rows : List DFRow) (b : Buckets),
    (rows.foldl bucketStep b).positive =
      b.positive ++ (rows.filter (fun r => rowLabel r == "POSITIVE")).map rowText ∧
    (rows.foldl bucketStep b).negative =
      b.negative ++ (rows.filter (fun r => rowLabel r == "NEGATIVE")).map rowText ∧
    (rows.foldl bucketStep b).neutral =
      b.neutral ++ (rows.filter
        (fun r => !(rowLabel r == "POSITIVE") && !(rowLabel r == "NEGATIVE"))).map
        rowText := by
  intro rows
  induction rows with
  | nil => intro b; simp
  | cons r rows ih =>
    intro b
    rw [List.foldl_cons]
    by_cases h1 : rowLabel r = "POSITIVE"
    · rw [bucketStep_pos h1]
      obtain ⟨ihp, ihn, ihu⟩ := ih { b with positive := b.positive ++ [rowText r] }
      refine ⟨?_, ?_, ?_⟩ <;>
        simp [ihp, ihn, ihu, List.filter_cons, h1]
    · by_cases h2 : rowLabel r = "NEGATIVE"
      · rw [bucketStep_neg h1 h2]
        obtain ⟨ihp, ihn, ihu⟩ := ih { b with negative := b.negative ++ [rowText r] }
        refine ⟨?_, ?_, ?_⟩ <;>
          simp [ihp, ihn, ihu, List.filter_cons, h1, h2]
      · rw [bucketStep_neu h1 h2]
        obtain ⟨ihp, ihn, ihu⟩ := ih { b with neutral := b.neutral ++ [rowText r] }
        refine ⟨?_, ?_, ?_⟩ <;>
          simp [ihp, ihn, ihu, List.filter_cons, h1, h2]

/-- C8: `get_sentiment_buckets` returns a map with exactly the keys
POSITIVE, NEGATIVE and NEUTRAL (the `Buckets` record), the POSITIVE and
NEGATIVE buckets hold exactly the texts of the rows with those normalized
labels (in row order), every other row — explicit NEUTRAL or any unknown
label — lands in the NEUTRAL bucket; in particular, on rows labelled
`[POSITIVE, WEIRD, NEUTRAL]` the WEIRD row's text is placed in NEUTRAL. -/
theorem c8_buckets :
    (∀ rows : List DFRow,
      (get_sentiment_buckets rows).positive =
        (rows.filter (fun r => rowLabel r == "POSITIVE")).map rowText ∧
      (get_sentiment_buckets rows).negative =
        (rows.filter (fun r => rowLabel r == "NEGATIVE")).map rowText ∧
      (get_sentiment_buckets rows).neutral =
        (rows.filter
          (fun r => !(rowLabel r == "POSITIVE") &&
            !(rowLabel r == "NEGATIVE"))).map rowText) ∧
    get_sentiment_buckets
        [⟨some "POSITIVE", some "t1"⟩, ⟨some "WEIRD", some "t2"⟩,
         ⟨some "NEUTRAL", some "t3"⟩] =
      { positive := ["t1"], negative := [], neutral := ["t2", "t3"] } := by
  constructor
  · intro rows
    have h := bucketsAux rows { positive := [], negative := [], neutral := [] }
    simpa using h
  · rfl

/-- C9: `format_output` projects exactly the fields username, text,
sentiment, score, keywords, entities, created_at, url (the
`ReadableRecord`), substituting `""` for each missing string field, `0.0`
for a missing score and `[]` for missing keywords/entities; in particular
a row missing `username` yields `""` rather than a missing-key failure. -/
theorem c9_format_output_defaults (row : EnrichedRow) :
    (format_output row).username = row.username.getD "" ∧
    (format_output row).text = row.text.getD "" ∧
    (format_output row).sentiment = row.sentiment.getD "" ∧
    (format_output row).score = row.sentiment_score.getD 0 ∧
    (format_output row).keywords = row.keywords.getD [] ∧
    (format_output row).entities = row.entities.getD [] ∧
    (format_output row).created_at = row.created_at.getD "" ∧
    (format_output row).url = row.url.getD "" ∧
    (format_output { row with username := none }).username = "" :=
  ⟨rfl, rfl, rfl, rfl, rfl, rfl, rfl, rfl, rfl⟩
